import Mathlib

/-!
# Verification of the Bad Apple curve extractor

A shallow embedding of `frame_to_scalar_curves` from `oneframe_plt.py`, the
column-scan curve extractor of this repository, together with proofs of the
specified properties.

Modelling conventions:

* A decoded grayscale image (the result of `cv2.imread(..., IMREAD_GRAYSCALE)`)
  is a pair of dimensions with a total intensity map, mirroring a numpy 2D
  array indexed as `img[y, x]`.  A file that fails to decode is `none`
  (`cv2.imread` returns `None` then; it never returns an array with a zero
  dimension, so decode failure subsumes the zero-width / zero-height case at
  this boundary).
* The binarized array produced by `cv2.threshold(img, 127, 255, THRESH_BINARY)`
  maps a sample to `255` when its intensity exceeds `127` and to `0` otherwise.
  The spec classes are FOREGROUND for the `0` samples (intensity at most `127`)
  and BACKGROUND for the `255` samples; the binary mask records the class as a
  `Bool` (`true` = FOREGROUND).  The relabelling is injective on `\x7b0, 255\x7d`,
  so the source's sample comparisons `binary[y, x] != binary[y + 1, x]` coincide
  with class comparisons (`thresh127_ne_iff` below).
* Event positions `y + 0.5` are modelled in `ℚ`; every float the source
  produces here is a half-integer, represented exactly.
* The `np.full(width, np.nan)` curve buffer is a `List (Option ℚ)` of length
  `width`, `none` standing for the NaN "absent" marker.
* The `all_curves` dictionary keyed by the synthetic names `"transition_i"` is
  a map from the rank `i` to an optional curve, `CurveDict := Nat → Option _`;
  a key is present exactly when the map returns `some`.
-/

/-- A decoded grayscale image: dimensions plus a total intensity map,
mirroring a numpy array indexed as `img[y, x]`. -/
structure Img where
  height : Nat
  width : Nat
  intensity : Nat → Nat → Nat

/-- One step of `cv2.threshold(img, 127, 255, cv2.THRESH_BINARY)`:
samples above the cutoff become `255`, the rest become `0`. -/
def thresh127 (v : Nat) : Nat := if 127 < v then 255 else 0

/-- The binary mask: dimensions plus the class of each sample
(`true` = FOREGROUND). -/
structure BMask where
  height : Nat
  width : Nat
  fg : Nat → Nat → Bool

/-- Thresholding an image at the fixed cutoff 127, as the source does with
`cv2.threshold(img, 127, 255, cv2.THRESH_BINARY)`; a sample is FOREGROUND
exactly when its binarized value is `0`. -/
def binarize (img : Img) : BMask :=
  { height := img.height
    width := img.width
    fg := fun y x => thresh127 (img.intensity y x) == 0 }

/-- The inner scan of one column: for `y` in `range(height - 1)` compare
`binary[y, x]` with `binary[y + 1, x]` and record `y + 0.5` when they differ. -/
def columnTransitions (m : BMask) (x : Nat) : List ℚ :=
  (List.range (m.height - 1)).filterMap fun y =>
    if m.fg y x ≠ m.fg (y + 1) x then some ((y : ℚ) + 1 / 2) else none

/-- The `all_curves` dictionary: rank (the `i` of the key `"transition_i"`)
to the curve stored there, `none` when the key is absent. -/
def CurveDict : Type := Nat → Option (List (Option ℚ))

/-- The dictionary before any column is processed. -/
def emptyCurves : CurveDict := fun _ => none

/-- `for i, y_pos in enumerate(transitions)` starting at index `i`: create the
curve `"transition_i"` as `np.full(width, nan)` if absent, then set entry `x`
to the recorded position. -/
def recordTransitions (width x : Nat) : Nat → List ℚ → CurveDict → CurveDict
  | _, [], curves => curves
  | i, v :: rest, curves =>
      recordTransitions width x (i + 1) rest fun j =>
        if j = i then
          some (((curves i).getD (List.replicate width none)).set x (some v))
        else curves j

/-- The outer loop `for x in range(width)`: scan each column with the given
per-column event list and record its events into the dictionary. -/
def scanWith (width : Nat) (events : Nat → List ℚ) : CurveDict :=
  (List.range width).foldl
    (fun curves x => recordTransitions width x 0 (events x) curves) emptyCurves

/-- The whole of `frame_to_scalar_curves`: decode (`none` = `cv2.imread`
returned `None`, raising `FileNotFoundError`), threshold, scan all columns;
on success return `x_sample = np.arange(width)` and the curve dictionary. -/
def frame_to_scalar_curves (loaded : Option Img) :
    Except String (List Nat × CurveDict) :=
  match loaded with
  | none => Except.error "Could not load image"
  | some img =>
      let binary := binarize img
      Except.ok (List.range binary.width, scanWith binary.width (columnTransitions binary))

/-- The rank-to-curve mapping extracted from a binary mask (the pure core of
`frame_to_scalar_curves`, after thresholding). -/
def maskCurves (m : BMask) : CurveDict := scanWith m.width (columnTransitions m)

/-- The value the extractor computed for column `x` at rank `r`: the entry of
curve `r` at index `x`, `none` when the curve or the entry is absent. -/
def entryAt (m : BMask) (r x : Nat) : Option ℚ :=
  match maskCurves m r with
  | none => none
  | some c => c.getD x none

/-- The largest event count of any single column. -/
def maxTransitions (m : BMask) : Nat :=
  ((List.range m.width).map fun x => (columnTransitions m x).length).foldr max 0

/-- Modelled from the spec: the PRESENCE mode of the extractor is not in
`src/` (the script there implements only the TRANSITION rule); per the spec,
in PRESENCE mode each row whose sample is FOREGROUND is an event at position
equal to its row index, found scanning rows top to bottom. -/
def columnPresence (m : BMask) (x : Nat) : List ℚ :=
  (List.range m.height).filterMap fun y =>
    if m.fg y x then some (y : ℚ) else none

/-- Modelled from the spec: the PRESENCE-mode extractor groups the per-column
presence events by rank with the same recording loop the source uses for
transitions. -/
def maskCurvesPresence (m : BMask) : CurveDict :=
  scanWith m.width (columnPresence m)

/-- A small concrete mask (height 4, width 2): column 0 is FOREGROUND on rows
0-1 (one transition, at 1.5), column 1 alternates (transitions at 0.5, 1.5,
2.5). -/
def demoT : BMask :=
  { height := 4, width := 2
    fg := fun y x => if x = 0 then decide (y < 2) else decide (y % 2 = 1) }

/-- `demoT` with its two columns swapped. -/
def demoTswap : BMask :=
  { height := 4, width := 2, fg := fun y x => demoT.fg y (1 - x) }

/-- The 4-wide, 3-high mask of the spec's concrete scenario: FOREGROUND at
(row 1, col 0), (row 1, col 1), (row 0, col 2), (row 2, col 3). -/
def demoP : BMask :=
  { height := 3, width := 4
    fg := fun y x =>
      (x == 0 && y == 1) || (x == 1 && y == 1) || (x == 2 && y == 0) ||
        (x == 3 && y == 2) }

/-- A small concrete grayscale image. -/
def demoImg : Img :=
  { height := 4, width := 2
    intensity := fun y x => if x = 0 ∧ y < 2 then 30 else 200 }

/-! ## Supporting lemmas -/

theorem recordTransitions_apply (width x : Nat) (ts : List ℚ) (i : Nat)
    (curves : CurveDict) (j : Nat) :
    recordTransitions width x i ts curves j =
      if i ≤ j ∧ j - i < ts.length then
        some (((curves j).getD (List.replicate width none)).set x
          (some (ts.getD (j - i) 0)))
      else curves j := by
  induction ts generalizing i curves with
  | nil => simp [recordTransitions]
  | cons v rest ih =>
      rw [recordTransitions, ih]
      rcases Nat.lt_trichotomy j i with hji | hji | hji
      · have h1 : ¬ (i + 1 ≤ j) := by omega
        have h2 : ¬ (i ≤ j) := by omega
        simp [h1, h2, Nat.ne_of_lt hji]
      · subst hji
        have h1 : ¬ (j + 1 ≤ j) := by omega
        simp [h1]
      · have h1 : i + 1 ≤ j := hji
        have h2 : i ≤ j := Nat.le_of_lt hji
        have hne : j ≠ i := by omega
        have hsub : j - i = (j - (i + 1)) + 1 := by omega
        by_cases h3 : j - (i + 1) < rest.length
        · have h4 : j - i < rest.length + 1 := by omega
          simp only [h1, h3, and_true, if_pos, h2, h4, List.length_cons, hne,
            if_neg, ite_false]
          rw [hsub, List.getD_cons_succ]
        · have h4 : ¬ (j - i < rest.length + 1) := by omega
          simp [h1, h3, h2, h4, hne]

theorem map_range_getElem? (width : Nat) (f : Nat → Option ℚ) (j : Nat) :
    ((List.range width).map f)[j]? = if j < width then some (f j) else none := by
  by_cases h : j < width
  · rw [List.getElem?_map, List.getElem?_range h, if_pos h]
    rfl
  · rw [if_neg h, List.getElem?_eq_none]
    simp only [List.length_map, List.length_range]
    omega

theorem scanWith_range_apply (width : Nat) (events : Nat → List ℚ) :
    ∀ k, k ≤ width → ∀ r,
      (List.range k).foldl
          (fun curves x => recordTransitions width x 0 (events x) curves)
          emptyCurves r =
        if ∃ x ∈ List.range k, r < (events x).length then
          some ((List.range width).map fun x =>
            if x < k then (events x)[r]? else none)
        else none := by
  intro k
  induction k with
  | zero => intro _ r; simp [emptyCurves]
  | succ k ih =>
      intro hk r
      have hk' : k ≤ width := by omega
      have hkw : k < width := by omega
      rw [List.range_succ, List.foldl_append, List.foldl_cons, List.foldl_nil,
        recordTransitions_apply, ih hk' r]
      simp only [Nat.sub_zero, Nat.zero_le, true_and]
      have hmem : ∀ x : Nat, x ∈ List.range k ++ [k] ↔ x < k + 1 := by
        intro x
        simp only [List.mem_append, List.mem_range, List.mem_singleton]
        omega
      by_cases hr : r < (events k).length
      · rw [if_pos hr]
        have hex : ∃ x ∈ List.range k ++ [k], r < (events x).length :=
          ⟨k, (hmem k).mpr (by omega), hr⟩
        rw [if_pos hex]
        congr 1
        by_cases hprev : ∃ x ∈ List.range k, r < (events x).length
        · rw [if_pos hprev, Option.getD_some]
          apply List.ext_getElem?
          intro j
          rw [List.getElem?_set, map_range_getElem?, map_range_getElem?,
            List.length_map, List.length_range]
          by_cases hj : k = j
          · subst hj
            rw [if_pos rfl, if_pos hkw, if_pos hkw]
            have : (events k)[r]? = some ((events k).getD r 0) := by
              rw [List.getD_eq_getElem _ _ hr, List.getElem?_eq_getElem hr]
            rw [this]
            simp [Nat.lt_succ_self]
          · rw [if_neg hj]
            by_cases hjw : j < width
            · rw [if_pos hjw, if_pos hjw]
              by_cases hjk : j < k
              · rw [if_pos hjk, if_pos (by omega : j < k + 1)]
              · rw [if_neg hjk, if_neg (by omega : ¬ j < k + 1)]
            · rw [if_neg hjw, if_neg hjw]
        · rw [if_neg hprev, Option.getD_none]
          apply List.ext_getElem?
          intro j
          rw [List.getElem?_set, map_range_getElem?, List.length_replicate]
          by_cases hj : k = j
          · subst hj
            rw [if_pos rfl, if_pos hkw, if_pos hkw]
            have : (events k)[r]? = some ((events k).getD r 0) := by
              rw [List.getD_eq_getElem _ _ hr, List.getElem?_eq_getElem hr]
            rw [this]
            simp [Nat.lt_succ_self]
          · rw [if_neg hj, List.getElem?_replicate]
            by_cases hjw : j < width
            · rw [if_pos hjw, if_pos hjw]
              by_cases hjk : j < k + 1
              · have hjk' : j < k := by omega
                have hnone : (events j)[r]? = none := by
                  apply List.getElem?_eq_none
                  by_contra hcon
                  exact hprev ⟨j, List.mem_range.mpr hjk', by omega⟩
                rw [if_pos hjk, hnone]
              · rw [if_neg hjk]
            · rw [if_neg hjw, if_neg hjw]
      · rw [if_neg hr]
        have hiff : (∃ x ∈ List.range k ++ [k], r < (events x).length) ↔
            ∃ x ∈ List.range k, r < (events x).length := by
          constructor
          · rintro ⟨x, hx, hrx⟩
            rw [hmem] at hx
            rcases Nat.lt_or_ge x k with h | h
            · exact ⟨x, List.mem_range.mpr h, hrx⟩
            · have : x = k := by omega
              subst this
              exact absurd hrx hr
          · rintro ⟨x, hx, hrx⟩
            rw [List.mem_range] at hx
            exact ⟨x, (hmem x).mpr (by omega), hrx⟩
        by_cases hprev : ∃ x ∈ List.range k, r < (events x).length
        · rw [if_pos hprev, if_pos (hiff.mpr hprev)]
          congr 1
          apply List.map_congr_left
          intro a _
          by_cases hak : a < k
          · rw [if_pos hak, if_pos (by omega : a < k + 1)]
          · rw [if_neg hak]
            by_cases hak' : a < k + 1
            · have : a = k := by omega
              subst this
              rw [if_pos hak']
              exact (List.getElem?_eq_none (by omega)).symm
            · rw [if_neg hak']
        · rw [if_neg hprev, if_neg (fun h => hprev (hiff.mp h))]

theorem scanWith_apply (width : Nat) (events : Nat → List ℚ) (r : Nat) :
    scanWith width events r =
      if ∃ x ∈ List.range width, r < (events x).length then
        some ((List.range width).map fun x => (events x)[r]?)
      else none := by
  have h := scanWith_range_apply width events width le_rfl r
  rw [scanWith, h]
  by_cases hex : ∃ x ∈ List.range width, r < (events x).length
  · rw [if_pos hex, if_pos hex]
    congr 1
    apply List.map_congr_left
    intro a ha
    rw [if_pos (List.mem_range.mp ha)]
  · rw [if_neg hex, if_neg hex]

theorem scanWith_isSome_iff (width : Nat) (events : Nat → List ℚ) (r : Nat) :
    (scanWith width events r).isSome = true ↔
      ∃ x, x < width ∧ r < (events x).length := by
  rw [scanWith_apply]
  by_cases hex : ∃ x ∈ List.range width, r < (events x).length
  · rw [if_pos hex]
    simp only [Option.isSome_some, true_iff]
    obtain ⟨x, hx, hlen⟩ := hex
    exact ⟨x, List.mem_range.mp hx, hlen⟩
  · rw [if_neg hex]
    simp only [Option.isSome_none, Bool.false_eq_true, false_iff]
    rintro ⟨x, hx, hlen⟩
    exact hex ⟨x, List.mem_range.mpr hx, hlen⟩

theorem scanWith_eq_some (width : Nat) (events : Nat → List ℚ) (r : Nat)
    (c : List (Option ℚ)) (h : scanWith width events r = some c) :
    c = (List.range width).map fun x => (events x)[r]? := by
  rw [scanWith_apply] at h
  by_cases hex : ∃ x ∈ List.range width, r < (events x).length
  · rw [if_pos hex] at h
    exact (Option.some_injective _ h).symm
  · rw [if_neg hex] at h
    cases h

theorem entryAt_eq (m : BMask) (r x : Nat) (hx : x < m.width) :
    entryAt m r x = (columnTransitions m x)[r]? := by
  by_cases hex : ∃ z ∈ List.range m.width, r < (columnTransitions m z).length
  · have hsome : maskCurves m r =
        some ((List.range m.width).map fun z => (columnTransitions m z)[r]?) := by
      rw [maskCurves, scanWith_apply, if_pos hex]
    simp only [entryAt, hsome]
    rw [List.getD_eq_getElem?_getD, map_range_getElem?, if_pos hx, Option.getD_some]
  · have hnone : maskCurves m r = none := by
      rw [maskCurves, scanWith_apply, if_neg hex]
    simp only [entryAt, hnone]
    have hlen : (columnTransitions m x).length ≤ r := by
      by_contra hcon
      exact hex ⟨x, List.mem_range.mpr hx, by omega⟩
    rw [List.getElem?_eq_none hlen]

theorem entryAt_none_of_width_le (m : BMask) (r x : Nat) (hx : m.width ≤ x) :
    entryAt m r x = none := by
  cases hmc : maskCurves m r with
  | none => simp [entryAt, hmc]
  | some c =>
      simp only [entryAt, hmc]
      have hc := scanWith_eq_some m.width (columnTransitions m) r c hmc
      have hlen : c.length = m.width := by
        rw [hc, List.length_map, List.length_range]
      rw [List.getD_eq_default]
      omega

theorem mem_columnTransitions (m : BMask) (x : Nat) (v : ℚ) :
    v ∈ columnTransitions m x ↔
      ∃ y, y < m.height - 1 ∧ m.fg y x ≠ m.fg (y + 1) x ∧ v = (y : ℚ) + 1 / 2 := by
  rw [columnTransitions, List.mem_filterMap]
  constructor
  · rintro ⟨y, hy, hf⟩
    rw [List.mem_range] at hy
    by_cases hne : m.fg y x ≠ m.fg (y + 1) x
    · rw [if_pos hne] at hf
      exact ⟨y, hy, hne, (Option.some_injective _ hf).symm⟩
    · rw [if_neg hne] at hf
      cases hf
  · rintro ⟨y, hy, hne, hv⟩
    exact ⟨y, List.mem_range.mpr hy, by rw [if_pos hne, hv]⟩

theorem mem_columnPresence (m : BMask) (x : Nat) (v : ℚ) :
    v ∈ columnPresence m x ↔
      ∃ y, y < m.height ∧ m.fg y x = true ∧ v = (y : ℚ) := by
  rw [columnPresence, List.mem_filterMap]
  constructor
  · rintro ⟨y, hy, hf⟩
    rw [List.mem_range] at hy
    by_cases hfg : m.fg y x
    · rw [if_pos hfg] at hf
      exact ⟨y, hy, hfg, (Option.some_injective _ hf).symm⟩
    · rw [if_neg hfg] at hf
      cases hf
  · rintro ⟨y, hy, hfg, hv⟩
    exact ⟨y, List.mem_range.mpr hy, by rw [if_pos hfg, hv]⟩

theorem half_position_inj (y z : Nat) (h : (y : ℚ) + 1 / 2 = (z : ℚ) + 1 / 2) :
    y = z := by
  have hq : (y : ℚ) = (z : ℚ) := by linarith
  exact_mod_cast hq

theorem lt_foldr_max (r : Nat) (l : List Nat) :
    r < l.foldr max 0 ↔ ∃ a ∈ l, r < a := by
  induction l with
  | nil => simp
  | cons a l ih => simp [List.foldr_cons, lt_max_iff, ih]

theorem columnTransitions_length_le (m : BMask) (x : Nat) :
    (columnTransitions m x).length ≤ m.height - 1 := by
  have h := List.length_filterMap_le
    (fun y => if m.fg y x ≠ m.fg (y + 1) x then some ((y : ℚ) + 1 / 2) else none)
    (List.range (m.height - 1))
  rw [columnTransitions]
  simpa using h

theorem filterMap_if_eq (p : Nat → Prop) [DecidablePred p] (g : Nat → ℚ)
    (l : List Nat) :
    (l.filterMap fun y => if p y then some (g y) else none) =
      (l.filter fun y => decide (p y)).map g := by
  induction l with
  | nil => rfl
  | cons a l ih =>
      rw [List.filterMap_cons, List.filter_cons]
      by_cases h : p a
      · rw [if_pos h, if_pos (decide_eq_true h), List.map_cons, ih]
      · rw [if_neg h, if_neg (fun hc => h (of_decide_eq_true hc)), ih]

theorem thresh127_ne_iff (a b : Nat) :
    thresh127 a ≠ thresh127 b ↔ ¬ ((a ≤ 127) ↔ (b ≤ 127)) := by
  rw [thresh127, thresh127]
  by_cases ha : 127 < a <;> by_cases hb : 127 < b <;> simp [ha, hb] <;> omega

/-! ## The claims -/

/-- C1: In TRANSITION mode, for every binary mask of height H and width W and
every column x, the extractor compares each adjacent row pair (y, y+1) for y
in 0..H-2 and emits an event at position y + 0.5 exactly when the two samples'
classes differ; exactly H-1 comparisons are made per column and the last row
is never itself an event source. -/
theorem transition_rule_correct (m : BMask) (x y : Nat) (v : ℚ) :
    columnTransitions m x =
      ((List.range (m.height - 1)).filter fun z =>
        decide (m.fg z x ≠ m.fg (z + 1) x)).map (fun z : Nat => (z : ℚ) + 1 / 2)
    ∧ (y < m.height - 1 →
        (((y : ℚ) + 1 / 2) ∈ columnTransitions m x ↔ m.fg y x ≠ m.fg (y + 1) x))
    ∧ (v ∈ columnTransitions m x →
        ∃ z, z < m.height - 1 ∧ v = (z : ℚ) + 1 / 2) := by
  refine ⟨?_, ?_, ?_⟩
  · rw [columnTransitions]
    exact filterMap_if_eq (fun z => m.fg z x ≠ m.fg (z + 1) x)
      (fun z => (z : ℚ) + 1 / 2) (List.range (m.height - 1))
  · intro hy
    rw [mem_columnTransitions]
    constructor
    · rintro ⟨z, _, hne, hv⟩
      have : y = z := half_position_inj y z hv
      subst this
      exact hne
    · intro hne
      exact ⟨y, hy, hne, rfl⟩
  · intro hv
    rw [mem_columnTransitions] at hv
    obtain ⟨z, hz, _, hveq⟩ := hv
    exact ⟨z, hz, hveq⟩

theorem transition_rule_correct_witness :
    ((1 : ℚ) + 1 / 2) ∈ columnTransitions demoT 0 :=
  ((transition_rule_correct demoT 0 1 0).2.1 (by decide)).mpr (by decide)

/-- C5: The binary mask is obtained from the grayscale image by thresholding
at the fixed cutoff 127: intensity ≤ 127 is FOREGROUND, intensity > 127 is
BACKGROUND, and the mask has the same dimensions as the image. -/
theorem threshold_correct (img : Img) (y x : Nat) :
    ((binarize img).fg y x = true ↔ img.intensity y x ≤ 127)
    ∧ ((binarize img).fg y x = false ↔ 127 < img.intensity y x)
    ∧ (binarize img).height = img.height
    ∧ (binarize img).width = img.width := by
  by_cases h : 127 < img.intensity y x
  · refine ⟨?_, ?_, rfl, rfl⟩
    · simp only [binarize, thresh127, if_pos h]
      constructor
      · intro hc
        simp at hc
      · intro hc
        omega
    · simp [binarize, thresh127, h]
  · refine ⟨?_, ?_, rfl, rfl⟩
    · simp [binarize, thresh127, h]
      omega
    · simp only [binarize, thresh127, if_neg h]
      constructor
      · intro hc
        simp at hc
      · intro hc
        omega

/-- C6: The extraction fails exactly when the source image cannot be decoded
(`cv2.imread` returned `None`; it never returns a zero-dimension array, so
that case is decode failure too), with no partial result, and succeeds on
every decoded image: no other failure mode exists. -/
theorem decode_failure_iff (loaded : Option Img) :
    ((∃ e, frame_to_scalar_curves loaded = Except.error e) ↔ loaded = none)
    ∧ (∀ img, loaded = some img →
        ∃ out, frame_to_scalar_curves loaded = Except.ok out) := by
  cases loaded with
  | none =>
      refine ⟨⟨fun _ => rfl, fun _ => ⟨"Could not load image", rfl⟩⟩, ?_⟩
      rintro img ⟨⟩
  | some img =>
      constructor
      · constructor
        · rintro ⟨e, he⟩
          cases he
        · rintro ⟨⟩
      · rintro img h
        exact ⟨_, rfl⟩

theorem decode_failure_iff_witness :
    (∃ e, frame_to_scalar_curves none = Except.error e)
    ∧ ∃ out, frame_to_scalar_curves (some demoImg) = Except.ok out :=
  ⟨(decode_failure_iff none).1.mpr rfl,
    (decode_failure_iff (some demoImg)).2 demoImg rfl⟩

/-- C7: The extractor is deterministic and stateless: the embedding is a pure
function of its input, so two runs on the same input (whole pipeline, or core
scan on a binary mask) produce bit-identical rank-to-curve output, and there
is no state for a run to mutate. -/
theorem extractor_deterministic (loaded : Option Img) (m : BMask) (r : Nat) :
    frame_to_scalar_curves loaded = frame_to_scalar_curves loaded
    ∧ maskCurves m r = maskCurves m r :=
  ⟨rfl, rfl⟩

/-- C2: PRESENCE mode (modelled from the spec; this mode's script is not
under `src/`): every FOREGROUND sample of a column is an event at position
equal to its row index, and on the spec's 4-wide, 3-high scenario mask the
extractor returns exactly one rank, with Curve[0] = [1, 1, 0, 2]. -/
theorem presence_mode_correct :
    (∀ (m : BMask) (x y : Nat), y < m.height →
        ((y : ℚ) ∈ columnPresence m x ↔ m.fg y x = true))
    ∧ maskCurvesPresence demoP 0 = some [some 1, some 1, some 0, some 2]
    ∧ (∀ r, 1 ≤ r → maskCurvesPresence demoP r = none) := by
  refine ⟨?_, by decide, ?_⟩
  · intro m x y hy
    rw [mem_columnPresence]
    constructor
    · rintro ⟨z, _, hfg, hv⟩
      have : y = z := by exact_mod_cast hv
      subst this
      exact hfg
    · intro hfg
      exact ⟨y, hy, hfg, rfl⟩
  · intro r hr
    rw [maskCurvesPresence, scanWith_apply, if_neg]
    rintro ⟨x, hx, hlen⟩
    rw [List.mem_range] at hx
    have hx4 : x = 0 ∨ x = 1 ∨ x = 2 ∨ x = 3 := by
      have : demoP.width = 4 := rfl
      omega
    have hone : (columnPresence demoP x).length = 1 := by
      rcases hx4 with h | h | h | h <;> subst h <;> decide
    omega

theorem presence_mode_correct_witness : (1 : ℚ) ∈ columnPresence demoP 0 :=
  (presence_mode_correct.1 demoP 0 1 (by decide)).mpr (by decide)

/-- C3: For every binary mask, the set of ranks in the returned mapping is
exactly 0..m-1 with no gaps, where m is the maximum number of events found
in any single column; a curve exists for rank r iff some column has at least
r+1 events. -/
theorem rank_set_contiguous (m : BMask) (r : Nat) :
    ((maskCurves m r).isSome = true ↔ r < maxTransitions m)
    ∧ ((maskCurves m r).isSome = true ↔
        ∃ x, x < m.width ∧ r < (columnTransitions m x).length) := by
  have hbase : (maskCurves m r).isSome = true ↔
      ∃ x, x < m.width ∧ r < (columnTransitions m x).length := by
    rw [maskCurves]
    exact scanWith_isSome_iff m.width (columnTransitions m) r
  refine ⟨?_, hbase⟩
  rw [hbase, maxTransitions, lt_foldr_max]
  constructor
  · rintro ⟨x, hx, hlen⟩
    exact ⟨(columnTransitions m x).length, List.mem_map.mpr
      ⟨x, List.mem_range.mpr hx, rfl⟩, hlen⟩
  · rintro ⟨a, ha, hra⟩
    obtain ⟨x, hx, hax⟩ := List.mem_map.mp ha
    exact ⟨x, List.mem_range.mp hx, by omega⟩

/-- C4: For every binary mask of width W and every rank r in the output,
Curve[r] has length exactly W; every entry at a column with fewer than r+1
events is the explicit absent marker `none`, every entry at a column with at
least r+1 events is a present value `some v`, and the absent marker is
distinguishable from the value zero. -/
theorem curve_shape_invariant (m : BMask) (r : Nat) (c : List (Option ℚ))
    (h : maskCurves m r = some c) :
    c.length = m.width
    ∧ (∀ x, x < m.width → (columnTransitions m x).length < r + 1 →
        c.getD x none = none)
    ∧ (∀ x, x < m.width → r < (columnTransitions m x).length →
        ∃ v : ℚ, c.getD x none = some v)
    ∧ (none : Option ℚ) ≠ some 0 := by
  rw [maskCurves] at h
  have hc := scanWith_eq_some m.width (columnTransitions m) r c h
  refine ⟨by rw [hc, List.length_map, List.length_range], ?_, ?_, by simp⟩
  · intro x hx hlen
    rw [hc, List.getD_eq_getElem?_getD, map_range_getElem?, if_pos hx,
      Option.getD_some]
    exact List.getElem?_eq_none (by omega)
  · intro x hx hlen
    rw [hc, List.getD_eq_getElem?_getD, map_range_getElem?, if_pos hx,
      Option.getD_some]
    exact ⟨_, List.getElem?_eq_getElem hlen⟩

theorem curve_shape_invariant_witness :
    ([none, some ((1 : ℚ) + 1 / 2)] : List (Option ℚ)).length = demoT.width :=
  (curve_shape_invariant demoT 1 [none, some ((1 : ℚ) + 1 / 2)] rfl).1

/-- C8: Columns are processed independently: the events and rank values the
extractor computes at a column depend only on that column's samples, so masks
agreeing on a column (e.g. after permuting or duplicating other columns)
agree on that column's event list and on its entry at every rank. -/
theorem column_independence (m₁ m₂ : BMask) (x₁ x₂ : Nat)
    (hh : m₁.height = m₂.height)
    (hcol : ∀ y, m₁.fg y x₁ = m₂.fg y x₂)
    (hx₁ : x₁ < m₁.width) (hx₂ : x₂ < m₂.width) :
    columnTransitions m₁ x₁ = columnTransitions m₂ x₂
    ∧ ∀ r, entryAt m₁ r x₁ = entryAt m₂ r x₂ := by
  have hts : columnTransitions m₁ x₁ = columnTransitions m₂ x₂ := by
    rw [columnTransitions, columnTransitions, hh]
    apply List.filterMap_congr
    intro y _
    rw [hcol y, hcol (y + 1)]
  refine ⟨hts, fun r => ?_⟩
  rw [entryAt_eq m₁ r x₁ hx₁, entryAt_eq m₂ r x₂ hx₂, hts]

theorem column_independence_witness :
    columnTransitions demoT 0 = columnTransitions demoTswap 1
    ∧ entryAt demoT 0 0 = entryAt demoTswap 0 1 := by
  have h := column_independence demoT demoTswap 0 1 rfl (fun y => rfl)
    (by decide) (by decide)
  exact ⟨h.1, h.2 0⟩

/-- C9: Every curve in the returned mapping contains at least one present
entry: a curve for rank r is only created when some column's r-th event is
recorded, so no returned curve is entirely absent. -/
theorem curve_has_value (m : BMask) (r : Nat) (c : List (Option ℚ))
    (h : maskCurves m r = some c) :
    ∃ x, x < m.width ∧ ∃ v : ℚ, c.getD x none = some v := by
  rw [maskCurves] at h
  have hsome : (scanWith m.width (columnTransitions m) r).isSome = true := by
    rw [h]
    rfl
  obtain ⟨x, hx, hlen⟩ :=
    (scanWith_isSome_iff m.width (columnTransitions m) r).mp hsome
  refine ⟨x, hx, ?_⟩
  have hc := scanWith_eq_some m.width (columnTransitions m) r c h
  rw [hc, List.getD_eq_getElem?_getD, map_range_getElem?, if_pos hx,
    Option.getD_some]
  exact ⟨_, List.getElem?_eq_getElem hlen⟩

theorem curve_has_value_witness :
    ∃ x, x < demoT.width ∧ ∃ v : ℚ,
      ([some ((1 : ℚ) + 1 / 2), some ((0 : ℚ) + 1 / 2)] :
        List (Option ℚ)).getD x none = some v :=
  curve_has_value demoT 0 [some ((1 : ℚ) + 1 / 2), some ((0 : ℚ) + 1 / 2)] rfl

/-- C10: In TRANSITION mode on a mask of height H, every present curve value
equals y + 0.5 for some y with 0 ≤ y ≤ H-2, hence is a half-integer strictly
between 0 and H-1, and no column contributes more than H-1 events. -/
theorem transition_values_half_integers (m : BMask) (r x : Nat) (v : ℚ)
    (h : entryAt m r x = some v) :
    (∃ y, y < m.height - 1 ∧ v = (y : ℚ) + 1 / 2)
    ∧ 0 < v ∧ v < ((m.height - 1 : Nat) : ℚ)
    ∧ ∀ z, (columnTransitions m z).length ≤ m.height - 1 := by
  by_cases hx : x < m.width
  · rw [entryAt_eq m r x hx] at h
    have hv : v ∈ columnTransitions m x := List.getElem?_mem h
    rw [mem_columnTransitions] at hv
    obtain ⟨y, hy, _, hveq⟩ := hv
    refine ⟨⟨y, hy, hveq⟩, ?_, ?_, fun z => columnTransitions_length_le m z⟩
    · rw [hveq]
      have hy0 : (0 : ℚ) ≤ (y : ℚ) := Nat.cast_nonneg y
      linarith
    · rw [hveq]
      have hcast : (y : ℚ) + 1 ≤ ((m.height - 1 : Nat) : ℚ) := by
        have hn : y + 1 ≤ m.height - 1 := hy
        exact_mod_cast hn
      linarith
  · rw [entryAt_none_of_width_le m r x (by omega)] at h
    cases h

theorem transition_values_half_integers_witness :
    (∃ y, y < demoT.height - 1 ∧ ((1 : ℚ) + 1 / 2) = (y : ℚ) + 1 / 2)
    ∧ 0 < ((1 : ℚ) + 1 / 2)
    ∧ ((1 : ℚ) + 1 / 2) < ((demoT.height - 1 : Nat) : ℚ) := by
  have h := transition_values_half_integers demoT 0 0 ((1 : ℚ) + 1 / 2) rfl
  exact ⟨h.1, h.2.1, h.2.2.1⟩
